import Mathlib

/-!
Verification of the determinant routine `det.js` (shape dispatcher plus
determinant evaluator) against its specification.  The code is embedded
shallowly: generic arithmetic, the LU decomposition and the matrix
abstraction are collaborator parameters, matrices are nested lists, the
mutable `visited` array of the permutation-parity scan is a `Finset ℕ`,
and the two `while` loops of the scan are fueled recursions whose `none`
result models non-termination of the source loop.
-/

namespace Mathjs

/-- Generic arithmetic collaborator: the operators `det` consumes. -/
structure Ops (α : Type) where
  multiply : α → α → α
  subtract : α → α → α
  unaryMinus : α → α

/-- Result of the external LU decomposition collaborator: `{ L, U, p }`. -/
structure LupResult (α : Type) where
  L : List (List α)
  U : List (List α)
  p : List ℕ

/-- Deep copy (`clone` from utils/object): on pure values, the value itself. -/
def cloneV {β : Type} (x : β) : β := x

/-- A raw nested array value: either a scalar element or an array of values. -/
inductive NArr (α : Type) where
  | item (a : α)
  | row (xs : List (NArr α))

/-- One nesting level of a value (its `valueOf`): the list of children of
an array, and `[]` for a scalar. -/
def asRow {α : Type} : NArr α → List (NArr α)
  | .item _ => []
  | .row xs => xs

/-- Read a nested value as a scalar element; `default` stands for the
JavaScript `undefined` produced by an out-of-contract access. -/
def asItem {α : Type} [Inhabited α] : NArr α → α
  | .item a => a
  | .row _ => default

/-- Two dimensional backing store (`x.valueOf()`) of a rank-2 matrix. -/
def toGrid {α : Type} [Inhabited α] (d : NArr α) : List (List α) :=
  (asRow d).map (fun r => (asRow r).map asItem)

/-- The matrix abstraction: a value together with the size it reports. -/
structure MatrixV (α : Type) where
  size : List ℕ
  data : NArr α

/-- An input to `det` as classified by the typed dispatch: either a
non-matrix value (the `any` signature) or an `Array | Matrix` value. -/
inductive DetInput (α : Type) where
  | anyv (a : α)
  | matv (m : MatrixV α)

/-- Reported size of an input: the size of the matrix abstraction, and
`[]` for a scalar (det.js sets `size = []` for non-array inputs). -/
def inSize {α : Type} : DetInput α → List ℕ
  | .anyv _ => []
  | .matv m => m.size

/-- The single concrete error type thrown by `det`: a JavaScript
`RangeError` carrying a message string (there is no separate ShapeError
or DimensionError class in the code). -/
structure RangeError where
  message : String

/-- Observable outcome of a call to `det`: a returned value (a nested
value or a cloned matrix), a thrown `RangeError`, or divergence of the
cycle scan (possible only when the decomposition's `p` array is not a
valid permutation). -/
inductive Outcome (α : Type) where
  | value (v : NArr α)
  | valueMat (m : MatrixV α)
  | error (e : RangeError)
  | diverge

/-- The `format` collaborator from utils/string applied to a size array. -/
def formatSize (s : List ℕ) : String :=
  "[" ++ String.intercalate ", " (s.map toString) ++ "]"

/-- Message of the squareness error thrown by `det`. -/
def sqMsg (s : List ℕ) : String :=
  "Matrix must be square " ++ "(size: " ++ formatSize s ++ ")"

/-- Message of the dimensionality error thrown by `det`. -/
def tdMsg (s : List ℕ) : String :=
  "Matrix must be two dimensional " ++ "(size: " ++ formatSize s ++ ")"

/-- Inner `while (!visited[decomp.p[j]])` loop of `_det`: follow the
cycle from `j`, marking `p j` visited and tallying the cycle length,
until the next index is already visited.  `fuel` bounds the number of
loop iterations; `none` models non-termination of the source loop. -/
def cycleFollow (p : ℕ → ℕ) : ℕ → ℕ → Finset ℕ → ℕ → Option (Finset ℕ × ℕ)
  | fuel, j, visited, len =>
    if p j ∈ visited then some (visited, len)
    else
      match fuel with
      | 0 => none
      | f + 1 => cycleFollow p f (p j) (insert (p j) visited) (len + 1)

/-- Outer `while (true)` loop of `_det`'s permutation-parity scan: skip
visited indices, break once `i` reaches `rows`, otherwise process the
cycle starting at `i` and count it when its length is even.  Returns the
final `evenCycles` counter together with the final `visited` set; `fuel`
bounds the total number of loop iterations across both loops. -/
def scanLoop (p : ℕ → ℕ) (n : ℕ) : ℕ → ℕ → Finset ℕ → ℕ → Option (ℕ × Finset ℕ)
  | 0, _, _, _ => none
  | fuel + 1, i, visited, evenCycles =>
    if i ∈ visited then scanLoop p n fuel (i + 1) visited evenCycles
    else if n ≤ i then some (evenCycles, visited)
    else
      match cycleFollow p fuel i visited 0 with
      | none => none
      | some (visited', len) =>
          scanLoop p n (fuel - len) i visited'
            (if len % 2 = 0 then evenCycles + 1 else evenCycles)
termination_by fuel _ _ _ => fuel
decreasing_by
  all_goals omega

/-- Diagonal product of `_det`'s general case: `det = U[0][0]` followed
by `det = multiply(det, U[i][i])` for `i = 1 .. rows-1`. -/
def diagProd {α : Type} [Inhabited α] (ops : Ops α) (U : List (List α)) (rows : ℕ) : α :=
  (List.range' 1 (rows - 1)).foldl
    (fun d i => ops.multiply d ((U.getD i []).getD i default))
    ((U.getD 0 []).getD 0 default)

/-- Diagonal product as the specification words it: the entries
`U[0][0], U[1][1], …, U[n−1][n−1]` multiplied together left to right. -/
def diagProdSpec {α : Type} [Inhabited α] (ops : Ops α) (U : List (List α)) (n : ℕ) : α :=
  match (List.range n).map (fun i => (U.getD i []).getD i default) with
  | [] => default
  | x :: xs => xs.foldl ops.multiply x

/-- Private evaluator `_det(matrix, rows, cols)` of det.js: closed forms
for 1×1 and 2×2, otherwise LU decomposition, diagonal product and the
permutation-parity sign.  `none` models divergence of the scan. -/
def _det {α : Type} [Inhabited α] (ops : Ops α)
    (lup : List (List α) → LupResult α)
    (matrix : List (List α)) (rows _cols : ℕ) : Option α :=
  if rows = 1 then
    some (cloneV ((matrix.getD 0 []).getD 0 default))
  else if rows = 2 then
    some (ops.subtract
      (ops.multiply ((matrix.getD 0 []).getD 0 default) ((matrix.getD 1 []).getD 1 default))
      (ops.multiply ((matrix.getD 1 []).getD 0 default) ((matrix.getD 0 []).getD 1 default)))
  else
    let decomp := lup matrix
    let d0 := diagProd ops decomp.U rows
    match scanLoop (fun j => decomp.p.getD j 0) rows (3 * rows + 1) 0 ∅ 0 with
    | some (evenCycles, _) =>
        some (if evenCycles % 2 = 0 then d0 else ops.unaryMinus d0)
    | none => none

/-- Public `det` function: typed dispatch (`any` versus
`Array | Matrix`), then the switch on the reported size's rank. -/
def det {α : Type} [Inhabited α] (ops : Ops α)
    (lup : List (List α) → LupResult α) : DetInput α → Outcome α
  | .anyv a => .value (.item (cloneV a))
  | .matv x =>
    match x.size with
    | [] => .valueMat (cloneV x)
    | [l] =>
        if l = 1 then .value (cloneV ((asRow x.data).getD 0 (.item default)))
        else .error ⟨sqMsg [l]⟩
    | [rows, cols] =>
        if rows = cols then
          match _det ops lup (toGrid (cloneV x.data)) rows cols with
          | some v => .value (.item v)
          | none => .diverge
        else .error ⟨sqMsg [rows, cols]⟩
    | s => .error ⟨tdMsg s⟩

/-- Action selected by the Shape Dispatcher for an input, before the
Determinant Evaluator runs. -/
inductive Action (α : Type) where
  | retAny (a : α)
  | retCloneMat (m : MatrixV α)
  | retElement (e : NArr α)
  | delegate (g : List (List α)) (rows cols : ℕ)
  | fail (e : RangeError)

/-- Shape Dispatcher in isolation: classification of an input by the
reported size's rank into the action `det` then performs. -/
def dispatch {α : Type} [Inhabited α] : DetInput α → Action α
  | .anyv a => .retAny (cloneV a)
  | .matv x =>
    match x.size with
    | [] => .retCloneMat (cloneV x)
    | [l] =>
        if l = 1 then .retElement (cloneV ((asRow x.data).getD 0 (.item default)))
        else .fail ⟨sqMsg [l]⟩
    | [rows, cols] =>
        if rows = cols then .delegate (toGrid (cloneV x.data)) rows cols
        else .fail ⟨sqMsg [rows, cols]⟩
    | s => .fail ⟨tdMsg s⟩

/-- Execution of a dispatched action by the Determinant Evaluator. -/
def runAction {α : Type} [Inhabited α] (ops : Ops α)
    (lup : List (List α) → LupResult α) : Action α → Outcome α
  | .retAny a => .value (.item a)
  | .retCloneMat m => .valueMat m
  | .retElement e => .value e
  | .delegate g rows cols =>
      match _det ops lup g rows cols with
      | some v => .value (.item v)
      | none => .diverge
  | .fail e => .error e

/-- Validity of the decomposition's permutation array, as guaranteed by
the collaborator contract: `p` maps `[0, n)` into itself with no repeats
(hence no missing indices). -/
def PermOn (p : ℕ → ℕ) (n : ℕ) : Prop :=
  (∀ k, k < n → p k < n) ∧ (∀ j, j < n → ∀ k, k < n → p j = p k → j = k)

instance (p : ℕ → ℕ) (n : ℕ) : Decidable (PermOn p n) := by
  unfold PermOn
  exact inferInstance

/-- Number of iterations of `p` needed to come back to `i`, found by
walking `j ← p j` with `fuel` steps of budget. -/
def cycLenAux (p : ℕ → ℕ) (i : ℕ) : ℕ → ℕ → ℕ
  | 0, _ => 0
  | fuel + 1, j => if p j = i then 1 else cycLenAux p i fuel (p j) + 1

/-- Length of the cycle of `p` through `i`: the least `m ≥ 1` with
`p^[m] i = i` (budget `n` suffices for a permutation of `[0, n)`). -/
def cycLen (p : ℕ → ℕ) (n i : ℕ) : ℕ := cycLenAux p i n i

/-- Cycle of `p` through `i`, as the set of iterates of `i`. -/
def orbit (p : ℕ → ℕ) (n i : ℕ) : Finset ℕ :=
  (Finset.range (cycLen p n i)).image (fun k => p^[k] i)

/-- Least element of the cycle of `p` through `x`. -/
def orbMin (p : ℕ → ℕ) (n x : ℕ) : ℕ :=
  (insert x (orbit p n x)).min' (Finset.insert_nonempty x _)

/-- Property that `i` is the least element of its cycle: the start index
at which the source scan discovers that cycle. -/
def IsCycMin (p : ℕ → ℕ) (n i : ℕ) : Prop := orbMin p n i = i

instance (p : ℕ → ℕ) (n i : ℕ) : Decidable (IsCycMin p n i) := by
  unfold IsCycMin
  exact inferInstance

/-- Number of cycles of `p` on `[0, n)`, fixed points included. -/
def cycleCount (p : ℕ → ℕ) (n : ℕ) : ℕ :=
  ((Finset.range n).filter (fun i => IsCycMin p n i)).card

/-- Number of even-length cycles of `p` on `[0, n)`; a fixed point has
cycle length 1 and is never counted. -/
def evenCycleCount (p : ℕ → ℕ) (n : ℕ) : ℕ :=
  ((Finset.range n).filter (fun i => IsCycMin p n i ∧ cycLen p n i % 2 = 0)).card

/-- Set of indices visited by the scan once its start index has reached
`i`: the members of every cycle whose least element is below `i`. -/
def visInv (p : ℕ → ℕ) (n i : ℕ) : Finset ℕ :=
  (Finset.range n).filter (fun x => orbMin p n x < i)

/-- Number of even-length cycles whose least element is at least `i`:
the part of `evenCycles` the scan has not counted yet at start index `i`. -/
def evenAbove (p : ℕ → ℕ) (n i : ℕ) : ℕ :=
  ((Finset.range n).filter
    (fun m => i ≤ m ∧ IsCycMin p n m ∧ cycLen p n m % 2 = 0)).card

/-- Integer instance of the arithmetic collaborator, for concrete runs. -/
def intOps : Ops ℤ :=
  { multiply := fun x y => x * y
    subtract := fun x y => x - y
    unaryMinus := fun x => -x }

/-- A trivial LU collaborator placeholder, for runs that never reach it. -/
def intLup : List (List ℤ) → LupResult ℤ := fun _ => ⟨[], [], []⟩

/-- A constant LU collaborator used to exercise the general case: upper
factor `[[2,0,0],[0,3,0],[0,0,4]]` and permutation `[1,0,2]`. -/
def lup3 : List (List ℤ) → LupResult ℤ :=
  fun _ => ⟨[], [[2, 0, 0], [0, 3, 0], [0, 0, 4]], [1, 0, 2]⟩

end Mathjs

namespace Mathjs

/-- Character data of the squareness message, split at its literal prefix. -/
lemma sqMsg_data (s : List ℕ) :
    (sqMsg s).data =
      "Matrix must be square (size: ".data ++ ((formatSize s).data ++ ")".data) := rfl

/-- Character data of the dimensionality message, split at its literal prefix. -/
lemma tdMsg_data (s : List ℕ) :
    (tdMsg s).data =
      "Matrix must be two dimensional (size: ".data ++ ((formatSize s).data ++ ")".data) := rfl

/-- The two error-message families of `det` are disjoint: a squareness
message never coincides with a dimensionality message, whatever sizes
they carry. -/
lemma sqMsg_ne_tdMsg (s t : List ℕ) : sqMsg s ≠ tdMsg t := by
  intro h
  have h2 : (sqMsg s).data = (tdMsg t).data := congrArg String.data h
  rw [sqMsg_data, tdMsg_data] at h2
  have h3 := congrArg (fun l => List.take 16 l) h2
  simp only [List.take_append_of_le_length
      (by decide : (16 : ℕ) ≤ "Matrix must be square (size: ".data.length),
    List.take_append_of_le_length
      (by decide : (16 : ℕ) ≤ "Matrix must be two dimensional (size: ".data.length)] at h3
  revert h3
  decide

/-- The body of `det` is the dispatcher's classification followed by the
execution of the selected action: shape dispatch and evaluation factor
exactly as the specification's two components. -/
lemma det_eq_runAction_dispatch {α : Type} [Inhabited α] (ops : Ops α)
    (lup : List (List α) → LupResult α) (x : DetInput α) :
    det ops lup x = runAction ops lup (dispatch x) := by
  cases x with
  | anyv a => rfl
  | matv m =>
    obtain ⟨size, data⟩ := m
    rcases size with _ | ⟨a, _ | ⟨b, _ | ⟨c, s⟩⟩⟩
    · rfl
    · by_cases h : a = 1 <;> simp [det, dispatch, runAction, h]
    · by_cases h : a = b <;> simp [det, dispatch, runAction, h]
    · rfl

end Mathjs

namespace Mathjs

/-- C3: for every 2×2 matrix input, `det` returns
`subtract(multiply(a00, a11), multiply(a10, a01))` built from the generic
multiply and subtract operators — the result does not depend on the LU
collaborator `lup`, which is quantified on the left of the equation and
absent from the right — and concretely `det [[1,2],[3,4]] = -2`. -/
theorem det_two_by_two :
    (∀ (α : Type) [Inhabited α] (ops : Ops α) (lup : List (List α) → LupResult α)
        (a b c d : α),
      det ops lup (.matv ⟨[2, 2], .row [.row [.item a, .item b], .row [.item c, .item d]]⟩)
        = .value (.item (ops.subtract (ops.multiply a d) (ops.multiply c b))))
    ∧ det intOps intLup
        (.matv ⟨[2, 2], .row [.row [.item 1, .item 2], .row [.item 3, .item 4]]⟩)
        = .value (.item (-2)) := by
  constructor
  · intro α _ ops lup a b c d
    rfl
  · rfl

/-- C5: every input whose reported size has rank at least 3 makes `det`
fail with the dimensionality `RangeError` carrying the observed size; the
arithmetic operators `ops` and the decomposition `lup` are quantified and
do not occur in the result, so the failure happens before any arithmetic
or decomposition is attempted. -/
theorem det_higher_rank {α : Type} [Inhabited α] (ops : Ops α)
    (lup : List (List α) → LupResult α) (x : DetInput α)
    (h3 : 3 ≤ (inSize x).length) :
    det ops lup x = .error ⟨tdMsg (inSize x)⟩ := by
  cases x with
  | anyv a => simp [inSize] at h3
  | matv m =>
    obtain ⟨size, data⟩ := m
    rcases size with _ | ⟨a, _ | ⟨b, _ | ⟨c, s⟩⟩⟩
    · simp [inSize] at h3
    · simp [inSize] at h3
    · simp [inSize] at h3
    · rfl

/-- C5 witness: a 1×1×1 input fails with the dimensionality error. -/
theorem det_higher_rank_witness :
    det intOps intLup (.matv ⟨[1, 1, 1], .item 0⟩) = .error ⟨tdMsg [1, 1, 1]⟩ :=
  det_higher_rank intOps intLup (.matv ⟨[1, 1, 1], .item 0⟩) (by decide)

/-- C6: a non-matrix scalar comes back as a deep copy equal to itself, a
rank-0 matrix comes back as a clone of itself, a 1-element vector and a
1×1 matrix come back as a copy of the sole element, and concretely
`det [[5]] = 5` and `det [7] = 7`; the arithmetic operators are
quantified and unused, so no arithmetic is performed on these paths. -/
theorem det_small_ranks :
    (∀ (α : Type) [Inhabited α] (ops : Ops α) (lup : List (List α) → LupResult α),
      (∀ a : α, det ops lup (.anyv a) = .value (.item a))
      ∧ (∀ d : NArr α, det ops lup (.matv ⟨[], d⟩) = .valueMat ⟨[], d⟩)
      ∧ (∀ y : NArr α, det ops lup (.matv ⟨[1], .row [y]⟩) = .value y)
      ∧ (∀ a : α, det ops lup (.matv ⟨[1, 1], .row [.row [.item a]]⟩)
          = .value (.item a)))
    ∧ det intOps intLup (.matv ⟨[1, 1], .row [.row [.item 5]]⟩) = .value (.item 5)
    ∧ det intOps intLup (.matv ⟨[1], .row [.item 7]⟩) = .value (.item 7) := by
  refine ⟨fun α _ ops lup => ⟨fun a => rfl, fun d => rfl, fun y => rfl, fun a => rfl⟩, rfl, rfl⟩

/-- C10: every error `det` raises is the one concrete `RangeError` type,
carrying either the squareness message or the dimensionality message
built from the reported size — and the two message families are
disjoint, so the failure modes are distinguishable only by (and exactly
by) their message strings. -/
theorem det_errors_range_error :
    (∀ (α : Type) [Inhabited α] (ops : Ops α) (lup : List (List α) → LupResult α)
        (x : DetInput α) (e : RangeError),
      det ops lup x = .error e →
        e = ⟨sqMsg (inSize x)⟩ ∨ e = ⟨tdMsg (inSize x)⟩)
    ∧ (∀ s t : List ℕ, sqMsg s ≠ tdMsg t) := by
  constructor
  · intro α _ ops lup x e h
    cases x with
    | anyv a => simp [det] at h
    | matv m =>
      obtain ⟨size, data⟩ := m
      rcases size with _ | ⟨a, _ | ⟨b, _ | ⟨c, s⟩⟩⟩
      · simp [det] at h
      · by_cases ha : a = 1
        · simp [det, ha] at h
        · simp [det, ha] at h
          left
          simp [inSize, ← h]
      · by_cases hab : a = b
        · rw [det_eq_runAction_dispatch] at h
          simp [dispatch, hab, runAction] at h
          rcases h2 : _det ops lup (toGrid (cloneV data)) b b with _ | v <;>
            simp [h2] at h
        · simp [det, hab] at h
          left
          simp [inSize, ← h]
      · simp [det] at h
        right
        simp [inSize, ← h]
  · exact sqMsg_ne_tdMsg

/-- C10 witness: a 2×3 input errors, and its error is classified. -/
theorem det_errors_range_error_witness :
    (⟨sqMsg [2, 3]⟩ : RangeError) = ⟨sqMsg [2, 3]⟩
    ∨ (⟨sqMsg [2, 3]⟩ : RangeError) = ⟨tdMsg [2, 3]⟩ :=
  det_errors_range_error.1 ℤ intOps intLup
    (.matv ⟨[2, 3], .row []⟩) ⟨sqMsg [2, 3]⟩ rfl

end Mathjs

namespace Mathjs

/-- C4: `det` fails with the squareness error (message "Matrix must be
square", carrying the reported size) exactly when the input is a 1-D
sequence of length other than 1, or a 2-D matrix whose row and column
counts differ. -/
theorem det_square_error_iff :
    ∀ (α : Type) [Inhabited α] (ops : Ops α) (lup : List (List α) → LupResult α)
      (x : DetInput α),
      (∃ e, det ops lup x = .error e ∧ e.message = sqMsg (inSize x)) ↔
        (((inSize x).length = 1 ∧ (inSize x).getD 0 0 ≠ 1)
          ∨ ((inSize x).length = 2 ∧ (inSize x).getD 0 0 ≠ (inSize x).getD 1 0)) := by
  intro α _ ops lup x
  cases x with
  | anyv a =>
    simp [det, inSize]
  | matv m =>
    obtain ⟨size, data⟩ := m
    rcases size with _ | ⟨a, _ | ⟨b, _ | ⟨c, s⟩⟩⟩
    · simp [det, inSize]
    · by_cases ha : a = 1
      · simp [det, inSize, ha]
      · simp [det, inSize, ha]
    · by_cases hab : a = b
      · rw [det_eq_runAction_dispatch]
        simp [dispatch, hab, runAction, inSize]
        rcases h2 : _det ops lup (toGrid (cloneV data)) b b with _ | v <;> simp [h2]
      · simp [det, inSize, hab]
    · simp only [det, inSize]
      constructor
      · rintro ⟨e, he, hmsg⟩
        cases he
        exact absurd hmsg.symm (sqMsg_ne_tdMsg _ _)
      · rintro (⟨h1, _⟩ | ⟨h1, _⟩) <;> simp at h1

/-- C7 counterexample: the original invariant "the Evaluator is only
ever called with rowCount == colCount == n ≥ 1" fails on the code: an
input whose reported size is `[0, 0]` passes the `rows === cols` check
and is delegated to the Evaluator with `n = 0`. -/
theorem dispatch_zero_reaches_evaluator :
    dispatch (.matv (⟨[0, 0], .row []⟩ : MatrixV ℤ)) = .delegate [] 0 0 ∧ ¬ (1 ≤ 0) := by
  exact ⟨rfl, by decide⟩

/-- C7 (amended): the Shape Dispatcher delegates to the Determinant
Evaluator only for matrix inputs whose reported size is `[n, n]` — it
enforces `rowCount == colCount`, but not `n ≥ 1`: a reported size
`[0, 0]` also reaches the Evaluator (with `n = 0`). -/
theorem dispatch_delegate_square {α : Type} [Inhabited α] (x : DetInput α)
    (g : List (List α)) (rows cols : ℕ)
    (h : dispatch x = .delegate g rows cols) :
    rows = cols ∧ ∃ m, x = .matv m ∧ m.size = [rows, cols] := by
  cases x with
  | anyv a => simp [dispatch] at h
  | matv m =>
    obtain ⟨size, data⟩ := m
    rcases size with _ | ⟨a, _ | ⟨b, _ | ⟨c, s⟩⟩⟩
    · simp [dispatch] at h
    · by_cases ha : a = 1 <;> simp [dispatch, ha] at h
    · by_cases hab : a = b
      · simp [dispatch, hab] at h
        obtain ⟨-, hr, hc⟩ := h
        subst hr
        subst hc
        exact ⟨rfl, ⟨_, rfl, by rw [hab]⟩⟩
      · simp [dispatch, hab] at h
    · simp [dispatch] at h

/-- C7 witness: a consistent 2×2 input is delegated with `rows = cols`. -/
theorem dispatch_delegate_square_witness :
    2 = 2 ∧ ∃ m, DetInput.matv (⟨[2, 2], .row []⟩ : MatrixV ℤ) = .matv m
      ∧ m.size = [2, 2] :=
  dispatch_delegate_square (.matv (⟨[2, 2], .row []⟩ : MatrixV ℤ)) [] 2 2 rfl

end Mathjs

namespace Mathjs

/-- Iterates of a permutation of `[0, n)` stay in `[0, n)`. -/
lemma iter_lt {p : ℕ → ℕ} {n : ℕ} (hp : PermOn p n) {i : ℕ} (hi : i < n)
    (k : ℕ) : p^[k] i < n := by
  induction k with
  | zero => simpa using hi
  | succ k ih =>
    rw [Function.iterate_succ_apply']
    exact hp.1 _ ih

/-- Iterates of a permutation of `[0, n)` can be cancelled on the left. -/
lemma iter_cancel {p : ℕ → ℕ} {n : ℕ} (hp : PermOn p n) (k : ℕ) {x y : ℕ}
    (hx : x < n) (hy : y < n) (h : p^[k] x = p^[k] y) : x = y := by
  induction k with
  | zero => simpa using h
  | succ k ih =>
    rw [Function.iterate_succ_apply', Function.iterate_succ_apply'] at h
    exact ih (hp.2 _ (iter_lt hp hx k) _ (iter_lt hp hy k) h)

/-- Pigeonhole: some positive iterate of a permutation of `[0, n)`
returns to its start. -/
lemma exists_return {p : ℕ → ℕ} {n : ℕ} (hp : PermOn p n) {i : ℕ} (hi : i < n) :
    ∃ t, t < n ∧ p^[t + 1] i = i := by
  have key : ∀ a b, a < b → b ≤ n → p^[a] i = p^[b] i → ∃ t, t < n ∧ p^[t + 1] i = i := by
    intro a b hab hbn heq
    have h1 : p^[a] (p^[b - a] i) = p^[b] i := by
      rw [← Function.iterate_add_apply]
      congr 1
      omega
    have h2 : p^[b - a] i = i :=
      iter_cancel hp a (iter_lt hp hi _) hi (by rw [h1, ← heq])
    refine ⟨b - a - 1, by omega, ?_⟩
    rw [show b - a - 1 + 1 = b - a by omega]
    exact h2
  have hmap : ∀ k ∈ Finset.range (n + 1), p^[k] i ∈ Finset.range n :=
    fun k _ => Finset.mem_range.2 (iter_lt hp hi k)
  have hcard : (Finset.range n).card < (Finset.range (n + 1)).card := by simp
  obtain ⟨a, ha, b, hb, hab, heq⟩ :=
    Finset.exists_ne_map_eq_of_card_lt_of_maps_to hcard hmap
  have han : a ≤ n := by simpa [Nat.lt_succ_iff] using ha
  have hbn : b ≤ n := by simpa [Nat.lt_succ_iff] using hb
  rcases Nat.lt_or_ge a b with hlt | hge
  · exact key a b hlt hbn heq
  · exact key b a (by omega) han heq.symm

/-- Characterisation of the fueled cycle-length walk: it returns one more
than the first exponent whose successor iterate returns to `i`. -/
lemma cycLenAux_spec {p : ℕ → ℕ} {i : ℕ} :
    ∀ fuel j t, t < fuel → p^[t + 1] j = i → (∀ s, s < t → p^[s + 1] j ≠ i) →
      cycLenAux p i fuel j = t + 1 := by
  intro fuel
  induction fuel with
  | zero => intro j t ht hret hmin; omega
  | succ f ih =>
    intro j t ht hret hmin
    by_cases hj : p j = i
    · have ht0 : t = 0 := by
        by_contra h0
        exact hmin 0 (by omega) (by simpa using hj)
      subst ht0
      simp [cycLenAux, hj]
    · have ht1 : 1 ≤ t := by
        rcases Nat.eq_zero_or_pos t with h0 | h1
        · subst h0
          exact absurd (by simpa using hret) hj
        · exact h1
      have hstep := ih (p j) (t - 1) (by omega)
        (by
          rw [show t - 1 + 1 = t by omega, ← Function.iterate_succ_apply]
          exact hret)
        (by
          intro s hs
          rw [← Function.iterate_succ_apply]
          exact hmin (s + 1) (by omega))
      simp only [cycLenAux, if_neg hj, hstep]
      omega

/-- The cycle length through `i` is positive, at most `n`, brings `i`
back to itself, and is the least positive exponent doing so. -/
lemma cycLen_spec {p : ℕ → ℕ} {n : ℕ} (hp : PermOn p n) {i : ℕ} (hi : i < n) :
    1 ≤ cycLen p n i ∧ cycLen p n i ≤ n ∧ p^[cycLen p n i] i = i
      ∧ ∀ m, 1 ≤ m → m < cycLen p n i → p^[m] i ≠ i := by
  classical
  obtain ⟨t, htn, hret⟩ := exists_return hp hi
  have hex : ∃ s, p^[s + 1] i = i := ⟨t, hret⟩
  obtain ⟨T, hTle, hTspec, hTmin⟩ :
      ∃ T, T ≤ t ∧ p^[T + 1] i = i ∧ ∀ s, s < T → p^[s + 1] i ≠ i :=
    ⟨Nat.find hex, Nat.find_min' hex hret, Nat.find_spec hex,
      fun s hs => Nat.find_min hex hs⟩
  have heq : cycLen p n i = T + 1 := cycLenAux_spec n i T (by omega) hTspec hTmin
  refine ⟨by omega, by omega, by rw [heq]; exact hTspec, ?_⟩
  intro m hm1 hmlt
  rw [heq] at hmlt
  have := hTmin (m - 1) (by omega)
  rwa [show m - 1 + 1 = m by omega] at this

end Mathjs

namespace Mathjs

/-- Membership in a cycle, unfolded. -/
lemma mem_orbit_iff {p : ℕ → ℕ} {n i x : ℕ} :
    x ∈ orbit p n i ↔ ∃ k, k < cycLen p n i ∧ p^[k] i = x := by
  simp [orbit]

/-- Every index belongs to its own cycle. -/
lemma mem_orbit_self {p : ℕ → ℕ} {n : ℕ} (hp : PermOn p n) {i : ℕ} (hi : i < n) :
    i ∈ orbit p n i :=
  mem_orbit_iff.2 ⟨0, by have := (cycLen_spec hp hi).1; omega, by simp⟩

/-- Cycles live inside `[0, n)`. -/
lemma orbit_lt {p : ℕ → ℕ} {n : ℕ} (hp : PermOn p n) {i : ℕ} (hi : i < n)
    {x : ℕ} (hx : x ∈ orbit p n i) : x < n := by
  obtain ⟨k, -, rfl⟩ := mem_orbit_iff.1 hx
  exact iter_lt hp hi k

/-- Multiples of the cycle length bring `i` back to itself. -/
lemma iterate_mul_cycLen {p : ℕ → ℕ} {n : ℕ} (hp : PermOn p n) {i : ℕ}
    (hi : i < n) (q : ℕ) : p^[q * cycLen p n i] i = i := by
  induction q with
  | zero => simp
  | succ q ih =>
    rw [Nat.succ_mul, Function.iterate_add_apply, (cycLen_spec hp hi).2.2.1, ih]

/-- Every iterate of `i` lies in the cycle of `i`. -/
lemma iterate_mem_orbit {p : ℕ → ℕ} {n : ℕ} (hp : PermOn p n) {i : ℕ}
    (hi : i < n) (m : ℕ) : p^[m] i ∈ orbit p n i := by
  have hL : 1 ≤ cycLen p n i := (cycLen_spec hp hi).1
  have h2 : p^[cycLen p n i * (m / cycLen p n i)] i = i := by
    rw [mul_comm]
    exact iterate_mul_cycLen hp hi _
  have h3 : p^[m] i = p^[m % cycLen p n i] i := by
    conv_lhs => rw [← Nat.mod_add_div m (cycLen p n i)]
    rw [Function.iterate_add_apply, h2]
  rw [h3]
  exact mem_orbit_iff.2 ⟨m % cycLen p n i, Nat.mod_lt _ (by omega), rfl⟩

/-- Cycles are closed under one application of `p`. -/
lemma orbit_closed {p : ℕ → ℕ} {n : ℕ} (hp : PermOn p n) {i : ℕ} (hi : i < n)
    {x : ℕ} (hx : x ∈ orbit p n i) : p x ∈ orbit p n i := by
  obtain ⟨k, -, rfl⟩ := mem_orbit_iff.1 hx
  have h1 : p (p^[k] i) = p^[k + 1] i := (Function.iterate_succ_apply' p k i).symm
  rw [h1]
  exact iterate_mem_orbit hp hi (k + 1)

/-- Distinct iterate exponents that stay within one cycle length of each
other give distinct cycle members. -/
lemma iter_ne {p : ℕ → ℕ} {n : ℕ} (hp : PermOn p n) {i : ℕ} (hi : i < n)
    {a b : ℕ} (hab : a < b) (hbaL : b - a < cycLen p n i) :
    p^[a] i ≠ p^[b] i := by
  intro h
  have h1 : p^[a] (p^[b - a] i) = p^[b] i := by
    rw [← Function.iterate_add_apply]
    congr 1
    omega
  have h2 : p^[b - a] i = i :=
    iter_cancel hp a (iter_lt hp hi _) hi (by rw [h1, ← h])
  exact (cycLen_spec hp hi).2.2.2 (b - a) (by omega) hbaL h2

/-- A cycle has exactly `cycLen` members. -/
lemma orbit_card {p : ℕ → ℕ} {n : ℕ} (hp : PermOn p n) {i : ℕ} (hi : i < n) :
    (orbit p n i).card = cycLen p n i := by
  rw [orbit, Finset.card_image_of_injOn, Finset.card_range]
  intro a ha b hb hab
  simp only [Finset.coe_range, Set.mem_Iio] at ha hb
  rcases lt_trichotomy a b with h | h | h
  · exact absurd hab (iter_ne hp hi h (by omega))
  · exact h
  · exact absurd hab.symm (iter_ne hp hi h (by omega))

/-- Any member of a cycle generates the same cycle. -/
lemma orbit_eq {p : ℕ → ℕ} {n : ℕ} (hp : PermOn p n) {i : ℕ} (hi : i < n)
    {x : ℕ} (hx : x ∈ orbit p n i) : orbit p n x = orbit p n i := by
  obtain ⟨k, hkL, rfl⟩ := mem_orbit_iff.1 hx
  have hxn : p^[k] i < n := iter_lt hp hi k
  apply Finset.Subset.antisymm
  · intro y hy
    obtain ⟨m, -, rfl⟩ := mem_orbit_iff.1 hy
    rw [← Function.iterate_add_apply]
    exact iterate_mem_orbit hp hi (m + k)
  · intro y hy
    obtain ⟨m, -, rfl⟩ := mem_orbit_iff.1 hy
    have hkey : p^[m + (cycLen p n i - k)] (p^[k] i) = p^[m] i := by
      rw [← Function.iterate_add_apply]
      rw [show m + (cycLen p n i - k) + k = m + cycLen p n i by omega]
      rw [Function.iterate_add_apply, (cycLen_spec hp hi).2.2.1]
    rw [← hkey]
    exact iterate_mem_orbit hp hxn _

/-- The least element of a cycle belongs to the cycle. -/
lemma orbMin_mem {p : ℕ → ℕ} {n : ℕ} (hp : PermOn p n) {x : ℕ} (hx : x < n) :
    orbMin p n x ∈ orbit p n x := by
  have h := Finset.min'_mem (insert x (orbit p n x)) (Finset.insert_nonempty x _)
  rw [Finset.mem_insert] at h
  rcases h with h | h
  · rw [orbMin, h]
    exact mem_orbit_self hp hx
  · exact h

/-- The least element of a cycle bounds each of its members below. -/
lemma orbMin_le {p : ℕ → ℕ} {n x y : ℕ} (hy : y ∈ orbit p n x) :
    orbMin p n x ≤ y :=
  Finset.min'_le _ _ (Finset.mem_insert_of_mem hy)

/-- The least element of the cycle through `x` is at most `x`. -/
lemma orbMin_le_self (p : ℕ → ℕ) (n x : ℕ) : orbMin p n x ≤ x :=
  Finset.min'_le _ _ (Finset.mem_insert_self _ _)

/-- The least element of a cycle lies in `[0, n)`. -/
lemma orbMin_lt {p : ℕ → ℕ} {n : ℕ} (hp : PermOn p n) {x : ℕ} (hx : x < n) :
    orbMin p n x < n :=
  orbit_lt hp hx (orbMin_mem hp hx)

/-- Members of one cycle share their least element. -/
lemma orbMin_congr {p : ℕ → ℕ} {n : ℕ} (hp : PermOn p n) {x : ℕ} (hx : x < n)
    {y : ℕ} (hy : y ∈ orbit p n x) : orbMin p n y = orbMin p n x := by
  have hyn : y < n := orbit_lt hp hx hy
  have he : orbit p n y = orbit p n x := orbit_eq hp hx hy
  apply le_antisymm
  · exact orbMin_le (by rw [he]; exact orbMin_mem hp hx)
  · exact orbMin_le (by rw [← he]; exact orbMin_mem hp hyn)

/-- Cycle lengths agree along a cycle. -/
lemma cycLen_congr {p : ℕ → ℕ} {n : ℕ} (hp : PermOn p n) {x : ℕ} (hx : x < n)
    {y : ℕ} (hy : y ∈ orbit p n x) : cycLen p n y = cycLen p n x := by
  have hyn : y < n := orbit_lt hp hx hy
  rw [← orbit_card hp hyn, ← orbit_card hp hx, orbit_eq hp hx hy]

end Mathjs

namespace Mathjs

/-- The image of the first `cycLen` successor-iterates of `i` is exactly
the cycle of `i`. -/
lemma image_succ_iterates {p : ℕ → ℕ} {n : ℕ} (hp : PermOn p n) {i : ℕ}
    (hi : i < n) :
    (Finset.range (cycLen p n i)).image (fun s => p^[s + 1] i) = orbit p n i := by
  have hL : 1 ≤ cycLen p n i := (cycLen_spec hp hi).1
  apply Finset.Subset.antisymm
  · intro y hy
    simp only [Finset.mem_image, Finset.mem_range] at hy
    obtain ⟨s, -, rfl⟩ := hy
    exact iterate_mem_orbit hp hi (s + 1)
  · intro y hy
    obtain ⟨k, hk, rfl⟩ := mem_orbit_iff.1 hy
    simp only [Finset.mem_image, Finset.mem_range]
    rcases Nat.eq_zero_or_pos k with hk0 | hk1
    · subst hk0
      refine ⟨cycLen p n i - 1, by omega, ?_⟩
      rw [show cycLen p n i - 1 + 1 = cycLen p n i by omega]
      rw [(cycLen_spec hp hi).2.2.1]
      simp
    · exact ⟨k - 1, by omega, by rw [show k - 1 + 1 = k by omega]⟩

/-- Invariant of the inner cycle-following loop: started at the `t`-th
iterate with the first `t` successor-iterates already marked, and given
at least `cycLen − t` fuel, it marks the rest of the cycle and returns
the cycle length. -/
lemma follow_aux {p : ℕ → ℕ} {n : ℕ} (hp : PermOn p n) {i : ℕ} (hi : i < n)
    (vis : Finset ℕ) (hdisj : ∀ y ∈ orbit p n i, y ∉ vis) :
    ∀ fuel t, t ≤ cycLen p n i → cycLen p n i - t ≤ fuel →
      cycleFollow p fuel (p^[t] i)
          (vis ∪ (Finset.range t).image (fun s => p^[s + 1] i)) t
        = some (vis ∪ orbit p n i, cycLen p n i) := by
  have hL : 1 ≤ cycLen p n i := (cycLen_spec hp hi).1
  have hclose : ∀ fuel,
      cycleFollow p fuel (p^[cycLen p n i] i)
          (vis ∪ (Finset.range (cycLen p n i)).image (fun s => p^[s + 1] i))
          (cycLen p n i)
        = some (vis ∪ orbit p n i, cycLen p n i) := by
    intro fuel
    rw [image_succ_iterates hp hi, (cycLen_spec hp hi).2.2.1]
    have hmem : p i ∈ vis ∪ orbit p n i := by
      have h1 : p i = p^[1] i := by simp
      rw [h1]
      exact Finset.mem_union_right _ (iterate_mem_orbit hp hi 1)
    rw [cycleFollow.eq_def]
    simp [hmem]
  intro fuel
  induction fuel with
  | zero =>
    intro t htL hfuel
    have ht : t = cycLen p n i := by omega
    subst ht
    exact hclose 0
  | succ f ih =>
    intro t htL hfuel
    rcases Nat.eq_or_lt_of_le htL with ht | htlt
    · subst ht
      exact hclose (f + 1)
    · have hsucc : p (p^[t] i) = p^[t + 1] i :=
        (Function.iterate_succ_apply' p t i).symm
      have hnot : p (p^[t] i) ∉
          vis ∪ (Finset.range t).image (fun s => p^[s + 1] i) := by
        rw [hsucc]
        intro hmem
        rcases Finset.mem_union.1 hmem with hv | himg
        · exact hdisj _ (iterate_mem_orbit hp hi (t + 1)) hv
        · simp only [Finset.mem_image, Finset.mem_range] at himg
          obtain ⟨s, hs, hseq⟩ := himg
          exact iter_ne hp hi (show s + 1 < t + 1 by omega) (by omega) hseq
      rw [cycleFollow.eq_def]
      simp only [if_neg hnot]
      have himg1 : insert (p (p^[t] i))
            (vis ∪ (Finset.range t).image (fun s => p^[s + 1] i))
          = vis ∪ (Finset.range (t + 1)).image (fun s => p^[s + 1] i) := by
        rw [hsucc, Finset.range_succ, Finset.image_insert, Finset.union_insert]
      rw [himg1, hsucc]
      exact ih (t + 1) (by omega) (by omega)

/-- Inner-loop correctness: from an unvisited start `i` whose cycle is
disjoint from the visited set, the loop marks exactly the cycle of `i`
and reports its length, within `cycLen` iterations of fuel. -/
lemma follow_cycle {p : ℕ → ℕ} {n : ℕ} (hp : PermOn p n) {i : ℕ} (hi : i < n)
    (vis : Finset ℕ) (hdisj : ∀ y ∈ orbit p n i, y ∉ vis)
    (fuel : ℕ) (hfuel : cycLen p n i ≤ fuel) :
    cycleFollow p fuel i vis 0 = some (vis ∪ orbit p n i, cycLen p n i) := by
  have h := follow_aux hp hi vis hdisj fuel 0 (by omega) (by omega)
  simpa using h

end Mathjs

namespace Mathjs

/-- Before the scan starts nothing is visited. -/
lemma visInv_zero (p : ℕ → ℕ) (n : ℕ) : visInv p n 0 = ∅ := by
  simp [visInv]

/-- Once the start index has passed every position, everything is visited. -/
lemma visInv_n {p : ℕ → ℕ} {n : ℕ} : visInv p n n = Finset.range n := by
  rw [visInv]
  apply Finset.filter_true_of_mem
  intro x hx
  exact lt_of_le_of_lt (orbMin_le_self p n x) (Finset.mem_range.1 hx)

/-- No even cycle remains uncounted at the end of the scan. -/
lemma evenAbove_n {p : ℕ → ℕ} {n : ℕ} : evenAbove p n n = 0 := by
  rw [evenAbove, Finset.card_eq_zero]
  apply Finset.filter_false_of_mem
  intro x hx
  rw [Finset.mem_range] at hx
  intro h
  omega

/-- At the start of the scan, every even cycle remains to be counted. -/
lemma evenAbove_zero {p : ℕ → ℕ} {n : ℕ} : evenAbove p n 0 = evenCycleCount p n := by
  rw [evenAbove, evenCycleCount]
  congr 1
  apply Finset.filter_congr
  intro m _
  simp

/-- Skip step: if start index `i` is already visited, advancing it does
not change the visited-set description. -/
lemma visInv_skip {p : ℕ → ℕ} {n i : ℕ} (hp : PermOn p n)
    (hmem : i ∈ visInv p n i) : visInv p n (i + 1) = visInv p n i := by
  obtain ⟨hir, hilt⟩ := Finset.mem_filter.1 hmem
  have hin : i < n := Finset.mem_range.1 hir
  ext x
  simp only [visInv, Finset.mem_filter, Finset.mem_range]
  constructor
  · rintro ⟨hxn, hx1⟩
    refine ⟨hxn, ?_⟩
    rcases Nat.lt_or_ge (orbMin p n x) i with h | h
    · exact h
    · exfalso
      have hxi : orbMin p n x = i := by omega
      have hio : i ∈ orbit p n x := hxi ▸ orbMin_mem hp hxn
      have := orbMin_congr hp hxn hio
      omega
  · rintro ⟨hxn, hx⟩
    exact ⟨hxn, by omega⟩

/-- Skip step: an already-visited start index is not a cycle minimum, so
the count of uncounted even cycles is unchanged by advancing past it. -/
lemma evenAbove_skip {p : ℕ → ℕ} {n i : ℕ} (_hp : PermOn p n)
    (hmem : i ∈ visInv p n i) : evenAbove p n (i + 1) = evenAbove p n i := by
  obtain ⟨hir, hilt⟩ := Finset.mem_filter.1 hmem
  rw [evenAbove, evenAbove]
  congr 1
  apply Finset.filter_congr
  intro m _
  constructor
  · rintro ⟨h1, h2⟩
    exact ⟨by omega, h2⟩
  · rintro ⟨h1, h2, h3⟩
    refine ⟨?_, h2, h3⟩
    rcases Nat.eq_or_lt_of_le h1 with h | h
    · exfalso
      rw [IsCycMin, ← h] at h2
      omega
    · omega

/-- The start index of a cycle step is the least element of its cycle. -/
lemma cycMin_of_not_visited {p : ℕ → ℕ} {n i : ℕ} (_hp : PermOn p n)
    (hi : i < n) (hnot : i ∉ visInv p n i) : IsCycMin p n i := by
  rw [visInv, Finset.mem_filter, Finset.mem_range] at hnot
  push_neg at hnot
  have h1 := hnot hi
  have h2 := orbMin_le_self p n i
  rw [IsCycMin]
  omega

/-- The cycle about to be processed is disjoint from the visited set. -/
lemma orbit_disjoint_visInv {p : ℕ → ℕ} {n i : ℕ} (hp : PermOn p n)
    (hi : i < n) (hmin : IsCycMin p n i) :
    ∀ y ∈ orbit p n i, y ∉ visInv p n i := by
  intro y hy hvis
  rw [visInv, Finset.mem_filter, Finset.mem_range] at hvis
  have hyn : y < n := orbit_lt hp hi hy
  have h1 : orbMin p n y = orbMin p n i := orbMin_congr hp hi hy
  rw [IsCycMin] at hmin
  omega

/-- Cycle step: visiting the cycle of a minimal start index `i` is the
same as letting the visited-set description advance past `i`. -/
lemma visInv_absorb {p : ℕ → ℕ} {n i : ℕ} (hp : PermOn p n)
    (hi : i < n) (hmin : IsCycMin p n i) :
    visInv p n (i + 1) = visInv p n i ∪ orbit p n i := by
  ext x
  simp only [visInv, Finset.mem_union, Finset.mem_filter, Finset.mem_range]
  constructor
  · rintro ⟨hxn, hx1⟩
    rcases Nat.lt_or_ge (orbMin p n x) i with h | h
    · exact Or.inl ⟨hxn, h⟩
    · right
      have hxi : orbMin p n x = i := by omega
      have hio : i ∈ orbit p n x := hxi ▸ orbMin_mem hp hxn
      have he : orbit p n i = orbit p n x := orbit_eq hp hxn hio
      rw [he]
      exact mem_orbit_self hp hxn
  · rintro (⟨hxn, hx⟩ | hx)
    · exact ⟨hxn, by omega⟩
    · have hxn : x < n := orbit_lt hp hi hx
      have h1 : orbMin p n x = orbMin p n i := orbMin_congr hp hi hx
      rw [IsCycMin] at hmin
      exact ⟨hxn, by omega⟩

/-- Cycle step: the visited set grows by exactly the cycle length. -/
lemma visInv_absorb_card {p : ℕ → ℕ} {n i : ℕ} (hp : PermOn p n)
    (hi : i < n) (hmin : IsCycMin p n i) :
    (visInv p n (i + 1)).card = (visInv p n i).card + cycLen p n i := by
  rw [visInv_absorb hp hi hmin, Finset.card_union_of_disjoint, orbit_card hp hi]
  rw [Finset.disjoint_right]
  intro y hy
  exact orbit_disjoint_visInv hp hi hmin y hy

/-- Cycle step: processing the cycle of a minimal start index accounts
for exactly that cycle in the count of uncounted even cycles. -/
lemma evenAbove_split {p : ℕ → ℕ} {n i : ℕ} (_hp : PermOn p n)
    (hi : i < n) (hmin : IsCycMin p n i) :
    evenAbove p n i
      = (if cycLen p n i % 2 = 0 then 1 else 0) + evenAbove p n (i + 1) := by
  by_cases hev : cycLen p n i % 2 = 0
  · rw [if_pos hev, evenAbove, evenAbove]
    have hset : (Finset.range n).filter
          (fun m => i ≤ m ∧ IsCycMin p n m ∧ cycLen p n m % 2 = 0)
        = insert i ((Finset.range n).filter
          (fun m => i + 1 ≤ m ∧ IsCycMin p n m ∧ cycLen p n m % 2 = 0)) := by
      ext m
      simp only [Finset.mem_insert, Finset.mem_filter, Finset.mem_range]
      constructor
      · rintro ⟨hmn, hle, hQ⟩
        rcases Nat.eq_or_lt_of_le hle with h | h
        · exact Or.inl h.symm
        · exact Or.inr ⟨hmn, by omega, hQ⟩
      · rintro (rfl | ⟨hmn, hle, hQ⟩)
        · exact ⟨Finset.mem_range.1 (Finset.mem_range.2 hi), le_refl _, hmin, hev⟩
        · exact ⟨hmn, by omega, hQ⟩
    rw [hset, Finset.card_insert_of_not_mem]
    · omega
    · intro hmem
      rw [Finset.mem_filter] at hmem
      omega
  · rw [if_neg hev, evenAbove, evenAbove]
    have hset : (Finset.range n).filter
          (fun m => i ≤ m ∧ IsCycMin p n m ∧ cycLen p n m % 2 = 0)
        = (Finset.range n).filter
          (fun m => i + 1 ≤ m ∧ IsCycMin p n m ∧ cycLen p n m % 2 = 0) := by
      apply Finset.filter_congr
      intro m hm
      constructor
      · rintro ⟨hle, hQ1, hQ2⟩
        rcases Nat.eq_or_lt_of_le hle with h | h
        · exfalso
          rw [← h] at hQ2
          exact hev hQ2
        · exact ⟨by omega, hQ1, hQ2⟩
      · rintro ⟨hle, hQ⟩
        exact ⟨by omega, hQ⟩
    rw [hset]
    omega

end Mathjs

namespace Mathjs

/-- Main invariant of the permutation-parity scan: from start index `i`
with the cycles of all smaller minima visited and `acc` cycles already
counted, given fuel at least `(n - i) + 2·(unvisited) + 1`, the scan
terminates, visits everything, and adds the yet-uncounted even cycles. -/
lemma scan_main {p : ℕ → ℕ} {n : ℕ} (hp : PermOn p n) :
    ∀ fuel i acc, i ≤ n →
      (n - i) + 2 * (n - (visInv p n i).card) + 1 ≤ fuel →
      scanLoop p n fuel i (visInv p n i) acc
        = some (acc + evenAbove p n i, Finset.range n) := by
  intro fuel
  induction fuel using Nat.strongRecOn with
  | ind fuel ih =>
    intro i acc hin hfuel
    rcases fuel with _ | f
    · omega
    by_cases hmem : i ∈ visInv p n i
    · -- skip step
      obtain ⟨hir, hilt⟩ := Finset.mem_filter.1 hmem
      have hiltn : i < n := Finset.mem_range.1 hir
      have h1 := visInv_skip hp hmem
      have h2 := evenAbove_skip hp hmem
      have hcard : (visInv p n (i + 1)).card = (visInv p n i).card :=
        congrArg Finset.card h1
      rw [scanLoop]
      simp only [if_pos hmem]
      rw [← h1, ← h2]
      exact ih f (by omega) (i + 1) acc (by omega) (by omega)
    · by_cases hni : n ≤ i
      · -- terminal step
        have hieq : i = n := le_antisymm hin hni
        rw [scanLoop]
        simp only [if_neg hmem, if_pos hni]
        have h1 : visInv p n i = Finset.range n := by
          rw [hieq]
          exact visInv_n
        have h2 : evenAbove p n i = 0 := by
          rw [hieq]
          exact evenAbove_n
        rw [h1, h2]
        simp
      · -- cycle step
        push_neg at hni
        have hmin : IsCycMin p n i := cycMin_of_not_visited hp hni hmem
        have hdisj := orbit_disjoint_visInv hp hni hmin
        have hL1 : 1 ≤ cycLen p n i := (cycLen_spec hp hni).1
        have hvcard : (visInv p n i).card ≤ n := by
          have h := Finset.card_le_card (Finset.filter_subset
            (fun x => orbMin p n x < i) (Finset.range n))
          simpa using h
        have hLn : cycLen p n i ≤ n - (visInv p n i).card := by
          have hsub : orbit p n i ⊆ Finset.range n \ visInv p n i := by
            intro y hy
            exact Finset.mem_sdiff.2
              ⟨Finset.mem_range.2 (orbit_lt hp hni hy), hdisj y hy⟩
          have hsubv : visInv p n i ⊆ Finset.range n := Finset.filter_subset _ _
          have hc := Finset.card_le_card hsub
          rw [Finset.card_sdiff hsubv, Finset.card_range] at hc
          rwa [orbit_card hp hni] at hc
        have hfollow := follow_cycle hp hni (visInv p n i) hdisj f (by omega)
        rw [scanLoop]
        simp only [if_neg hmem, if_neg (Nat.not_le.2 hni), hfollow]
        obtain ⟨g, hg⟩ : ∃ g, f - cycLen p n i = g + 1 :=
          ⟨f - cycLen p n i - 1, by omega⟩
        rw [hg, scanLoop]
        have hmem2 : i ∈ visInv p n i ∪ orbit p n i :=
          Finset.mem_union_right _ (mem_orbit_self hp hni)
        simp only [if_pos hmem2]
        rw [← visInv_absorb hp hni hmin]
        have hcard2 := visInv_absorb_card hp hni hmin
        have happ := ih g (by omega) (i + 1)
          (if cycLen p n i % 2 = 0 then acc + 1 else acc) (by omega) (by omega)
        rw [happ]
        have hsplit := evenAbove_split hp hni hmin
        have hacc : (if cycLen p n i % 2 = 0 then acc + 1 else acc)
            + evenAbove p n (i + 1) = acc + evenAbove p n i := by
          rw [hsplit]
          split_ifs <;> omega
        rw [hacc]

/-- Top-level run of the permutation-parity scan for a valid permutation:
any fuel of at least `3n + 1` suffices, every index ends up visited, and
the counter is exactly the number of even-length cycles. -/
lemma scan_run {p : ℕ → ℕ} {n : ℕ} (hp : PermOn p n) (fuel : ℕ)
    (hfuel : 3 * n + 1 ≤ fuel) :
    scanLoop p n fuel 0 ∅ 0 = some (evenCycleCount p n, Finset.range n) := by
  have h := scan_main hp fuel 0 0 (by omega)
    (by rw [visInv_zero]; simp; omega)
  rw [visInv_zero, evenAbove_zero] at h
  simpa using h

end Mathjs

namespace Mathjs

/-- C9: for a valid permutation of `[0, n)` with `n ≥ 1`, the cycle scan
terminates within a fuel budget linear in `n` (any `fuel ≥ 3n + 1`, one
unit per loop iteration), with every index in `0..n-1` marked visited;
marking is guarded by the visited check, so each index is marked exactly
once across all cycles, independent of the number of cycles. -/
theorem scan_terminates_marks_all {p : ℕ → ℕ} {n : ℕ} (_hn : 1 ≤ n)
    (hp : PermOn p n) :
    ∀ fuel, 3 * n + 1 ≤ fuel →
      scanLoop p n fuel 0 ∅ 0 = some (evenCycleCount p n, Finset.range n) :=
  fun fuel hfuel => scan_run hp fuel hfuel

/-- C9 witness: the scan of the transposition `[1, 0]` of `[0, 2)`. -/
theorem scan_terminates_marks_all_witness :
    scanLoop (fun j => [1, 0].getD j 0) 2 7 0 ∅ 0
      = some (evenCycleCount (fun j => [1, 0].getD j 0) 2, Finset.range 2) :=
  scan_terminates_marks_all (by decide) (by decide) 7 (by decide)

/-- The loop-shaped diagonal product of the code equals the left-to-right
product described by the specification, for any `n ≥ 1`. -/
lemma diagProd_eq_spec {α : Type} [Inhabited α] (ops : Ops α)
    (U : List (List α)) {n : ℕ} (hn : 1 ≤ n) :
    diagProd ops U n = diagProdSpec ops U n := by
  obtain ⟨k, rfl⟩ : ∃ k, n = k + 1 := ⟨n - 1, by omega⟩
  rw [diagProd, diagProdSpec]
  rw [List.range_succ_eq_map]
  simp only [List.map_cons, List.map_map]
  rw [show k + 1 - 1 = k by omega]
  rw [List.range'_eq_map_range]
  rw [List.foldl_map, List.foldl_map]
  congr 1
  funext d i
  rw [Nat.add_comm 1 i]
  rfl

end Mathjs

namespace Mathjs

/-- C1: for a square n×n matrix input with n ≥ 3 whose decomposition
yields a valid permutation array, `det` returns the left-to-right
product of the diagonal entries of the upper factor `U`, as-is when the
number of even-length cycles of `p` is even, and negated with the
generic unary-minus operator when that count is odd. -/
theorem det_general_case {α : Type} [Inhabited α] (ops : Ops α)
    (lup : List (List α) → LupResult α) (m : MatrixV α) (n : ℕ)
    (hsize : m.size = [n, n]) (hn : 3 ≤ n)
    (hp : PermOn (fun j => (lup (toGrid m.data)).p.getD j 0) n) :
    det ops lup (.matv m)
      = .value (.item
          (if evenCycleCount (fun j => (lup (toGrid m.data)).p.getD j 0) n % 2 = 0
           then diagProdSpec ops (lup (toGrid m.data)).U n
           else ops.unaryMinus (diagProdSpec ops (lup (toGrid m.data)).U n))) := by
  obtain ⟨size, data⟩ := m
  simp only at hsize
  subst hsize
  simp only at hp
  have h1 : ¬(n = 1) := by omega
  have h2 : ¬(n = 2) := by omega
  simp only [det, cloneV, _det, if_neg h1, if_neg h2, if_true]
  rw [scan_run hp (3 * n + 1) (by omega)]
  rw [diagProd_eq_spec ops _ (by omega)]

end Mathjs

namespace Mathjs

/-- A concrete 3×3 integer matrix value, for exercising the general case. -/
def mat3 : MatrixV ℤ :=
  ⟨[3, 3], .row [.row [.item 1, .item 0, .item 0],
                 .row [.item 0, .item 1, .item 0],
                 .row [.item 0, .item 0, .item 1]]⟩

/-- C1 witness: the general case evaluated with the collaborator `lup3`
(permutation `[1, 0, 2]`, one even cycle, so the product is negated). -/
theorem det_general_case_witness :
    det intOps lup3 (.matv mat3)
      = .value (.item
          (if evenCycleCount (fun j => (lup3 (toGrid mat3.data)).p.getD j 0) 3 % 2 = 0
           then diagProdSpec intOps (lup3 (toGrid mat3.data)).U 3
           else intOps.unaryMinus (diagProdSpec intOps (lup3 (toGrid mat3.data)).U 3))) :=
  det_general_case intOps lup3 mat3 3 rfl (by decide) (by decide)

end Mathjs

namespace Mathjs

/-- Parity bookkeeping over any finite family of cycle lengths: the sum
has the parity of the count plus the number of even members, because a
length differs in parity from 1 exactly when it is even. -/
lemma sum_parity (s : Finset ℕ) (f : ℕ → ℕ) :
    s.sum f % 2 = (s.card + (s.filter (fun m => f m % 2 = 0)).card) % 2 := by
  induction s using Finset.induction_on with
  | empty => simp
  | insert ha ih =>
    rename_i a s
    have hih : (∑ x ∈ s, f x) % 2
        = (s.card + (s.filter (fun m => f m % 2 = 0)).card) % 2 := ih
    rw [Finset.sum_insert ha, Finset.card_insert_of_not_mem ha, Finset.filter_insert]
    by_cases hev : f a % 2 = 0
    · rw [if_pos hev, Finset.card_insert_of_not_mem (by
        intro hmem
        exact ha (Finset.mem_of_mem_filter a hmem))]
      omega
    · rw [if_neg hev]
      omega

/-- The cycles of a valid permutation partition `[0, n)`: the range is
the disjoint union of the cycles of the cycle minima. -/
lemma range_eq_biUnion_orbits {p : ℕ → ℕ} {n : ℕ} (hp : PermOn p n) :
    Finset.range n
      = ((Finset.range n).filter (fun m => IsCycMin p n m)).biUnion
          (fun m => orbit p n m) := by
  apply Finset.Subset.antisymm
  · intro x hx
    have hxn : x < n := Finset.mem_range.1 hx
    rw [Finset.mem_biUnion]
    refine ⟨orbMin p n x, ?_, ?_⟩
    · rw [Finset.mem_filter, Finset.mem_range]
      exact ⟨orbMin_lt hp hxn,
        by rw [IsCycMin]; exact orbMin_congr hp hxn (orbMin_mem hp hxn)⟩
    · rw [orbit_eq hp hxn (orbMin_mem hp hxn)]
      exact mem_orbit_self hp hxn
  · intro x hx
    rw [Finset.mem_biUnion] at hx
    obtain ⟨m, hm, hxm⟩ := hx
    rw [Finset.mem_filter, Finset.mem_range] at hm
    exact Finset.mem_range.2 (orbit_lt hp hm.1 hxm)

/-- Distinct cycle minima have disjoint cycles. -/
lemma orbits_pairwise_disjoint {p : ℕ → ℕ} {n : ℕ} (hp : PermOn p n) :
    ∀ m₁ ∈ (Finset.range n).filter (fun m => IsCycMin p n m),
      ∀ m₂ ∈ (Finset.range n).filter (fun m => IsCycMin p n m),
        m₁ ≠ m₂ → Disjoint (orbit p n m₁) (orbit p n m₂) := by
  intro m₁ hm₁ m₂ hm₂ hne
  rw [Finset.mem_filter, Finset.mem_range] at hm₁ hm₂
  rw [Finset.disjoint_left]
  intro x hx1 hx2
  have h1 : orbMin p n x = m₁ := by
    rw [orbMin_congr hp hm₁.1 hx1]
    exact hm₁.2
  have h2 : orbMin p n x = m₂ := by
    rw [orbMin_congr hp hm₂.1 hx2]
    exact hm₂.2
  exact hne (h1 ▸ h2)

/-- The cycle lengths of the cycle minima of a valid permutation of
`[0, n)` sum to `n`. -/
lemma sum_cycLen {p : ℕ → ℕ} {n : ℕ} (hp : PermOn p n) :
    ((Finset.range n).filter (fun m => IsCycMin p n m)).sum
        (fun m => cycLen p n m) = n := by
  have hbi := range_eq_biUnion_orbits hp
  have hcard := congrArg Finset.card hbi
  rw [Finset.card_range, Finset.card_biUnion (orbits_pairwise_disjoint hp)] at hcard
  conv_rhs => rw [hcard]
  apply Finset.sum_congr rfl
  intro m hm
  rw [Finset.mem_filter, Finset.mem_range] at hm
  exact (orbit_card hp hm.1).symm

/-- Core parity identity: `n` minus the cycle count has the parity of
the even-length cycle count. -/
lemma key_parity {p : ℕ → ℕ} {n : ℕ} (hp : PermOn p n) :
    (n - cycleCount p n) % 2 = evenCycleCount p n % 2 := by
  have h := sum_parity
    ((Finset.range n).filter (fun m => IsCycMin p n m)) (fun m => cycLen p n m)
  rw [sum_cycLen hp] at h
  have hcle : cycleCount p n ≤ n := by
    rw [cycleCount]
    calc ((Finset.range n).filter (fun m => IsCycMin p n m)).card
        ≤ (Finset.range n).card := Finset.card_filter_le _ _
      _ = n := Finset.card_range n
  have hecc : evenCycleCount p n
      = (((Finset.range n).filter (fun m => IsCycMin p n m)).filter
          (fun m => cycLen p n m % 2 = 0)).card := by
    rw [evenCycleCount, Finset.filter_filter]
  have hcc : cycleCount p n
      = ((Finset.range n).filter (fun m => IsCycMin p n m)).card := rfl
  rw [hecc, hcc]
  omega

/-- Powers of `-1` sorted by the exponent's parity. -/
lemma neg_one_pow_parity (k : ℕ) :
    (((-1 : ℤ) ^ k = 1) ↔ k % 2 = 0) ∧ (((-1 : ℤ) ^ k = -1) ↔ k % 2 = 1) := by
  rcases Nat.even_or_odd k with he | ho
  · have h1 : (-1 : ℤ) ^ k = 1 := Even.neg_one_pow he
    have h2 := Nat.even_iff.1 he
    constructor
    · simp [h1, h2]
    · rw [h1]
      constructor
      · intro h
        exact absurd h (by decide)
      · intro h
        omega
  · have h1 : (-1 : ℤ) ^ k = -1 := Odd.neg_one_pow ho
    have h2 := Nat.odd_iff.1 ho
    constructor
    · rw [h1]
      constructor
      · intro h
        exact absurd h (by decide)
      · intro h
        omega
    · simp [h1, h2]

/-- C2: for every valid permutation of `[0, n)`, the standard sign
`(-1)^(n - c)` (with `c` the number of cycles, fixed points included) is
`+1` exactly when the number of even-length cycles is even and `-1`
exactly when it is odd; the counter produced by the code's scan has the
same parity as `n - c`; and a cycle of length 1 is never counted even. -/
theorem sign_rule_equivalence {p : ℕ → ℕ} {n : ℕ} (hp : PermOn p n) :
    (((-1 : ℤ) ^ (n - cycleCount p n) = 1 ↔ evenCycleCount p n % 2 = 0)
      ∧ ((-1 : ℤ) ^ (n - cycleCount p n) = -1 ↔ evenCycleCount p n % 2 = 1))
    ∧ (∀ fuel ec vis, 3 * n + 1 ≤ fuel →
        scanLoop p n fuel 0 ∅ 0 = some (ec, vis) →
        ec % 2 = (n - cycleCount p n) % 2)
    ∧ (∀ i, cycLen p n i = 1 → cycLen p n i % 2 ≠ 0) := by
  have hkey := key_parity hp
  refine ⟨⟨?_, ?_⟩, ?_, ?_⟩
  · rw [(neg_one_pow_parity (n - cycleCount p n)).1]
    omega
  · rw [(neg_one_pow_parity (n - cycleCount p n)).2]
    omega
  · intro fuel ec vis hfuel hscan
    rw [scan_run hp fuel hfuel] at hscan
    have h1 : evenCycleCount p n = ec := congrArg Prod.fst (Option.some.inj hscan)
    omega
  · intro i h1
    rw [h1]
    decide

/-- C2 witness: the permutation `[1, 0, 2]` of `[0, 3)`. -/
theorem sign_rule_equivalence_witness :
    (((-1 : ℤ) ^ (3 - cycleCount (fun j => [1, 0, 2].getD j 0) 3) = 1
        ↔ evenCycleCount (fun j => [1, 0, 2].getD j 0) 3 % 2 = 0)
      ∧ ((-1 : ℤ) ^ (3 - cycleCount (fun j => [1, 0, 2].getD j 0) 3) = -1
        ↔ evenCycleCount (fun j => [1, 0, 2].getD j 0) 3 % 2 = 1))
    ∧ (∀ fuel ec vis, 3 * 3 + 1 ≤ fuel →
        scanLoop (fun j => [1, 0, 2].getD j 0) 3 fuel 0 ∅ 0 = some (ec, vis) →
        ec % 2 = (3 - cycleCount (fun j => [1, 0, 2].getD j 0) 3) % 2)
    ∧ (∀ i, cycLen (fun j => [1, 0, 2].getD j 0) 3 i = 1 →
        cycLen (fun j => [1, 0, 2].getD j 0) 3 i % 2 ≠ 0) :=
  sign_rule_equivalence (by decide)

end Mathjs
